import Mathlib

/-!
# Verification of the invisibility-cloak frame pipeline

A shallow embedding of `invisibility_cloak.py`: HSV color segmentation
(`create_color_mask`), morphological mask refinement (`refine_mask`),
background capture (`capture_background`), masked compositing
(`apply_invisibility_effect`) and the recording toggle (`toggle_recording`).

Images are dense `h × w` grids embedded as total functions `Nat × Nat → α`
together with their dimensions; uint8 channel values are embedded as `Nat`
(all pixel data in the program stays within `0..255`, and the only overflow
site, `cv2.add`, saturates at 255, which is modeled explicitly).
Python exceptions (e.g. `IndexError` from `masks[0]` on an empty list)
are modeled by `Option`: `none` is a raised exception.
-/

namespace Cloak

/-- Pixel coordinates `(row, column)`. -/
abbrev Pos := Nat × Nat

/-- A BGR pixel: channel triple `(b, g, r)`, device color order of the frames. -/
abbrev BGR3 := Nat × Nat × Nat

/-- An HSV pixel: channel triple `(h, s, v)`, OpenCV ranges H `0..180`, S,V `0..255`. -/
abbrev HSV3 := Nat × Nat × Nat

/-- A color range: inclusive lower and upper HSV bounds, as in `COLOR_PRESETS`. -/
abbrev ColorRange := HSV3 × HSV3

/-- A dense 2D image: dimensions plus a total pixel function.  Embeds a
`numpy` array of shape `(h, w)` (plus channels); only coordinates inside the
grid correspond to array cells. -/
structure Img (α : Type) where
  h : Nat
  w : Nat
  px : Pos → α

/-- All in-bounds coordinates of an `h × w` image. -/
def grid (h w : Nat) : Finset Pos := Finset.range h ×ˢ Finset.range w

/-! ## ColorSegmenter: `create_color_mask` (invisibility_cloak.py lines 221-245) -/

/-- Channelwise `≤` on HSV triples. -/
def le3 (a b : HSV3) : Prop := a.1 ≤ b.1 ∧ a.2.1 ≤ b.2.1 ∧ a.2.2 ≤ b.2.2

instance (a b : HSV3) : Decidable (le3 a b) :=
  inferInstanceAs (Decidable (_ ≤ _ ∧ _ ≤ _ ∧ _ ≤ _))

/-- Membership test of one pixel in one inclusive HSV box, the per-pixel
predicate of `cv2.inRange(hsv_frame, lower, upper)`. -/
def inRangeTest (lower upper v : HSV3) : Prop := le3 lower v ∧ le3 v upper

instance (lower upper v : HSV3) : Decidable (inRangeTest lower upper v) :=
  inferInstanceAs (Decidable (le3 _ _ ∧ le3 _ _))

/-- `cv2.inRange(hsv_frame, lower, upper)`: a uint8 mask that is 255 where the
pixel lies inside the inclusive box and 0 elsewhere. -/
def inRangeImg (hsv : Img HSV3) (lower upper : HSV3) : Img Nat :=
  ⟨hsv.h, hsv.w, fun p => if inRangeTest lower upper (hsv.px p) then 255 else 0⟩

/-- `cv2.bitwise_or` of two uint8 masks (pointwise `Nat.lor`). -/
def lorImg (a b : Img Nat) : Img Nat :=
  ⟨a.h, a.w, fun p => a.px p ||| b.px p⟩

/-- Lines 234-245: build one `cv2.inRange` mask per range, then
`final_mask = masks[0]` combined by `cv2.bitwise_or` with `masks[1:]`.
On an empty range list, `masks[0]` raises `IndexError`, modeled as `none`. -/
def combine_ranges (ranges : List ColorRange) (hsv : Img HSV3) : Option (Img Nat) :=
  match ranges.map (fun r => inRangeImg hsv r.1 r.2) with
  | [] => none
  | m :: rest => some (rest.foldl lorImg m)

/-- The `COLOR_PRESETS` table (lines 71-98), in dict insertion order
red, blue, green, yellow; each entry is its `"ranges"` list. -/
def COLOR_PRESETS : List (List ColorRange) :=
  [ [(((0, 120, 70) : HSV3), ((10, 255, 255) : HSV3)),
     (((170, 120, 70) : HSV3), ((180, 255, 255) : HSV3))],
    [(((100, 150, 50) : HSV3), ((130, 255, 255) : HSV3))],
    [(((40, 40, 40) : HSV3), ((80, 255, 255) : HSV3))],
    [(((20, 100, 100) : HSV3), ((30, 255, 255) : HSV3))] ]

/-- The `HSVTuner` object (lines 101-147): the active/initialized flags and
the six trackbar positions. -/
structure HSVTuner where
  is_active : Bool
  is_initialized : Bool
  h_min : Nat
  s_min : Nat
  v_min : Nat
  h_max : Nat
  s_max : Nat
  v_max : Nat

/-- `HSVTuner.get_hsv_range` (lines 133-147): `None` unless the tuner is both
active and initialized, else the live `(lower, upper)` pair read from the
trackbars. -/
def get_hsv_range (t : HSVTuner) : Option (HSV3 × HSV3) :=
  if t.is_active ∧ t.is_initialized then
    some ((t.h_min, t.s_min, t.v_min), (t.h_max, t.s_max, t.v_max))
  else none

/-- The preset branch of `create_color_mask` (lines 230-245):
`color_names[current_color_index]` indexes the preset table (out-of-range
raises, modeled as `none`), then the ranges are combined. -/
def preset_path (idx : Nat) (hsv : Img HSV3) : Option (Img Nat) :=
  match COLOR_PRESETS.get? idx with
  | none => none
  | some ranges => combine_ranges ranges hsv

/-- `InvisibilityCloak.create_color_mask` (lines 221-245): if the tuner is
active and yields a range, segment by that single live range; otherwise fall
through to the active color preset. -/
def create_color_mask (t : HSVTuner) (idx : Nat) (hsv : Img HSV3) : Option (Img Nat) :=
  if t.is_active then
    match get_hsv_range t with
    | some (lower, upper) => some (inRangeImg hsv lower upper)
    | none => preset_path idx hsv
  else preset_path idx hsv

/-! ## CompositingEngine: tail of `apply_invisibility_effect` (lines 420-431) -/

/-- `cv2.add` on one uint8 channel: saturating addition clamped at 255. -/
def satAdd (a b : Nat) : Nat := min (a + b) 255

/-- `cv2.add` on a BGR pixel, channelwise saturating. -/
def satAdd3 (a b : BGR3) : BGR3 :=
  (satAdd a.1 b.1, satAdd a.2.1 b.2.1, satAdd a.2.2 b.2.2)

/-- Lines 420-431 of `apply_invisibility_effect`:
`inv_mask = bitwise_not(mask)` (uint8 complement `255 - v`),
`background_part = bitwise_and(background, background, mask=mask)`
(the source pixel where the mask is nonzero, zero elsewhere),
`frame_part = bitwise_and(frame, frame, mask=inv_mask)`, and
`result = cv2.add(background_part, frame_part)`. -/
def composite_parts (frame background : Img BGR3) (mask : Img Nat) : Img BGR3 :=
  let inv_mask : Img Nat := ⟨mask.h, mask.w, fun p => 255 - mask.px p⟩
  let background_part : Img BGR3 :=
    ⟨background.h, background.w, fun p =>
      if mask.px p ≠ 0 then background.px p else (0, 0, 0)⟩
  let frame_part : Img BGR3 :=
    ⟨frame.h, frame.w, fun p =>
      if inv_mask.px p ≠ 0 then frame.px p else (0, 0, 0)⟩
  ⟨frame.h, frame.w, fun p => satAdd3 (background_part.px p) (frame_part.px p)⟩

/-- A well-formed uint8 channel triple: every channel is at most 255. -/
def wf3 (c : Nat × Nat × Nat) : Prop := c.1 ≤ 255 ∧ c.2.1 ≤ 255 ∧ c.2.2 ≤ 255

instance (c : Nat × Nat × Nat) : Decidable (wf3 c) :=
  inferInstanceAs (Decidable (_ ≤ _ ∧ _ ≤ _ ∧ _ ≤ _))

/-! ## MaskRefiner: `refine_mask` (lines 247-261)

The structuring element is the fixed `3 × 3` all-ones kernel
(`self.morph_kernel`, line 190), so erosion is a min-filter and dilation a
max-filter over the 8-neighborhood plus the pixel itself.  OpenCV's default
border for `erode` is `+inf` (255 for uint8) and for `dilate` is `-inf` (0),
so both filters range over the in-grid part of the neighborhood only;
out-of-grid output coordinates, which have no array cell, are fixed at 0. -/

/-- `q` lies in the `3 × 3` window centered at `p` (Chebyshev distance ≤ 1);
includes `p` itself. -/
def near (p q : Pos) : Prop :=
  q.1 ≤ p.1 + 1 ∧ p.1 ≤ q.1 + 1 ∧ q.2 ≤ p.2 + 1 ∧ p.2 ≤ q.2 + 1

instance (p q : Pos) : Decidable (near p q) :=
  inferInstanceAs (Decidable (_ ≤ _ ∧ _ ≤ _ ∧ _ ≤ _ ∧ _ ≤ _))

/-- The in-grid part of the `3 × 3` window centered at `p`. -/
def nbhd (h w : Nat) (p : Pos) : Finset Pos := (grid h w).filter (fun q => near p q)

/-- `cv2.erode` with the `3 × 3` ones kernel: min-filter over the in-grid
neighborhood (the constant `+inf` border never contributes to a min). -/
def erodeImg (m : Img Nat) : Img Nat :=
  ⟨m.h, m.w, fun p =>
    if p.1 < m.h ∧ p.2 < m.w then (nbhd m.h m.w p).fold min 255 m.px
    else 0⟩

/-- `cv2.dilate` with the `3 × 3` ones kernel: max-filter over the in-grid
neighborhood (the constant `-inf` border never contributes to a max). -/
def dilateImg (m : Img Nat) : Img Nat :=
  ⟨m.h, m.w, fun p =>
    if p.1 < m.h ∧ p.2 < m.w then (nbhd m.h m.w p).fold max 0 m.px
    else 0⟩

/-- `cv2.morphologyEx(mask, cv2.MORPH_OPEN, kernel, iterations=2)` (line 250):
two erosions followed by two dilations. -/
def morphOpen2 (m : Img Nat) : Img Nat := dilateImg (dilateImg (erodeImg (erodeImg m)))

/-- The nonzero (member) in-grid cells of a mask. -/
def memSet (m : Img Nat) : Finset Pos := (grid m.h m.w).filter (fun q => m.px q ≠ 0)

/-- One step of connected-component growth: add every member cell adjacent
to the current set. `cv2.findContours` groups mask members into 8-connected
regions; this is that connectivity closure, one layer at a time. -/
def expand (m : Img Nat) (S : Finset Pos) : Finset Pos :=
  S ∪ (memSet m).filter (fun q => ∃ a ∈ S, near a q)

/-- The 8-connected component of `p` in mask `m`: the connectivity closure is
reached after at most `h * w + 1` growth steps. -/
def comp (m : Img Nat) (p : Pos) : Finset Pos :=
  (expand m)^[m.h * m.w + 1] {p}

/-- The contour area filter (lines 256-259): `cv2.findContours` +
`cv2.contourArea(contour) < 500` + `cv2.fillPoly(mask, [contour], 0)` erases
every connected mask region whose area is below 500; surviving cells keep
their value.  The enclosed area of a region is modeled by its cell count
(the spec's "500 pixel-units"); `cv2.contourArea` computes the area of the
boundary polygon, which is below the cell count, and no behavior verified
here depends on the threshold's exact calibration. -/
def areaFilter (m : Img Nat) : Img Nat :=
  ⟨m.h, m.w, fun p =>
    if p.1 < m.h ∧ p.2 < m.w ∧ m.px p ≠ 0 ∧ (comp m p).card < 500 then 0
    else m.px p⟩

/-- `InvisibilityCloak.refine_mask` (lines 247-261): opening with two
iterations, one more dilation, then the small-contour area filter. -/
def refine_mask (m : Img Nat) : Img Nat := areaFilter (dilateImg (morphOpen2 m))

/-- A mask has an isolated single-pixel member if some in-grid member cell
has no other member cell in its 8-neighborhood. -/
def hasIsolatedMember (m : Img Nat) : Bool :=
  decide (∃ p ∈ grid m.h m.w, m.px p ≠ 0 ∧
    ∀ q ∈ grid m.h m.w, near p q → q ≠ p → m.px q = 0)

/-! ## BGR→HSV conversion (`cv2.cvtColor(frame, cv2.COLOR_BGR2HSV)`, line 414)

OpenCV's 8-bit conversion uses fixed-point division tables; it is modeled
here with exact integer arithmetic (hue on the half-degree scale `0..180`,
negative hues wrapped by `+180`).  No claim verified below depends on the
numeric output of this conversion. -/

/-- One BGR pixel to HSV, OpenCV 8-bit convention. -/
def bgr_to_hsv (c : BGR3) : HSV3 :=
  let b := c.1
  let g := c.2.1
  let r := c.2.2
  let v := max r (max g b)
  let vmin := min r (min g b)
  let diff := v - vmin
  let s := if v = 0 then 0 else (255 * diff + v / 2) / v
  let hraw : Int :=
    if diff = 0 then 0
    else if v = r then (30 * ((g : Int) - (b : Int))) / (diff : Int)
    else if v = g then 60 + (30 * ((b : Int) - (r : Int))) / (diff : Int)
    else 120 + (30 * ((r : Int) - (g : Int))) / (diff : Int)
  let hh := if hraw < 0 then hraw + 180 else hraw
  (hh.toNat, s, v)

/-- Whole-frame BGR→HSV conversion. -/
def cvtBGR2HSV (f : Img BGR3) : Img HSV3 := ⟨f.h, f.w, fun p => bgr_to_hsv (f.px p)⟩

/-! ## SessionController state and `apply_invisibility_effect` -/

/-- The mutable fields of `InvisibilityCloak` that the verified operations
touch (lines 174-193): the background plate, the tuner, the preset index,
the recording flag and the video writer (kept as its `(width, height)`
frame size; the writer handle itself is an external resource). -/
structure CloakState where
  background : Option (Img BGR3)
  hsv_tuner : HSVTuner
  current_color_index : Nat
  is_recording : Bool
  video_writer : Option (Nat × Nat)

/-- `InvisibilityCloak.apply_invisibility_effect` (lines 408-432): identity
when no background plate is set; otherwise convert to HSV, build and refine
the color mask, and composite plate and frame through the mask.  `none` is a
propagated exception from mask creation. -/
def apply_invisibility_effect (st : CloakState) (frame : Img BGR3) : Option (Img BGR3) :=
  match st.background with
  | none => some frame
  | some bg =>
    let hsv := cvtBGR2HSV frame
    match create_color_mask st.hsv_tuner st.current_color_index hsv with
    | none => none
    | some mask => some (composite_parts frame bg (refine_mask mask))

/-! ## BackgroundEstimator: `capture_background` (lines 263-321)

The camera is modeled as the list of pending `cap.read()` results, consumed
in order; `none` is a failed read (`ret == False`).  The countdown phase
reads and discards `countdown_frames` results; the capture phase reads
`num_frames` results and keeps the successful ones.  The on-screen countdown
and progress overlays go to the display sink and are not modeled. -/

/-- `countdown_frames = 60` (line 269). -/
def countdown_frames : Nat := 60

/-- Channelwise sum of two channel triples. -/
def addc3 (a b : BGR3) : BGR3 := (a.1 + b.1, a.2.1 + b.2.1, a.2.2 + b.2.2)

/-- `cv2.flip(frame, 1)`: horizontal mirror. -/
def flip1 (f : Img BGR3) : Img BGR3 := ⟨f.h, f.w, fun p => f.px (p.1, f.w - 1 - p.2)⟩

/-- Per-pixel channel sum over a stack of frames. -/
def sumPx (l : List (Img BGR3)) (p : Pos) : BGR3 :=
  l.foldr (fun g acc => addc3 (g.px p) acc) (0, 0, 0)

/-- `np.mean(frames, axis=0).astype(np.uint8)` (line 315): the per-pixel,
per-channel arithmetic mean.  The float32 mean truncated to uint8 is modeled
as exact integer sum with floor division; the stack is nonempty by
construction (`if frames:`), so the head is passed separately. -/
def meanImg (f : Img BGR3) (fs : List (Img BGR3)) : Img BGR3 :=
  ⟨f.h, f.w, fun p =>
    let s := sumPx (f :: fs) p
    let n := fs.length + 1
    (s.1 / n, s.2.1 / n, s.2.2 / n)⟩

/-- One reflection step of OpenCV's `BORDER_REFLECT_101` indexing. -/
def refl101Step (n x : Int) : Int :=
  if x < 0 then -x else if n ≤ x then 2 * n - 2 - x else x

/-- `BORDER_REFLECT_101` for a kernel of radius 2: at most two reflections
are ever needed for an axis of length at least 2 (four steps are iterated
for safety); a length-1 axis maps everything to 0. -/
def refl101 (n x : Int) : Int :=
  if n ≤ 1 then 0 else refl101Step n (refl101Step n (refl101Step n (refl101Step n x)))

/-- The 1D binomial kernel OpenCV uses for `GaussianBlur` with
`ksize = 5, sigma = 0`: `[1, 4, 6, 4, 1] / 16`, paired with its offsets. -/
def gkernel : List (Int × Nat) := [(-2, 1), (-1, 4), (0, 6), (1, 4), (2, 1)]

/-- `cv2.GaussianBlur(img, (5, 5), 0)` at one pixel: the separable binomial
kernel (total weight 256) over reflected coordinates, rounded to nearest. -/
def blurAt (img : Img BGR3) (p : Pos) : BGR3 :=
  let s := gkernel.foldr (fun a acc =>
    addc3 (gkernel.foldr (fun b acc2 =>
      let i := (refl101 (img.h : Int) ((p.1 : Int) + a.1)).toNat
      let j := (refl101 (img.w : Int) ((p.2 : Int) + b.1)).toNat
      let c := img.px (i, j)
      addc3 (a.2 * b.2 * c.1, a.2 * b.2 * c.2.1, a.2 * b.2 * c.2.2) acc2)
      (0, 0, 0)) acc) (0, 0, 0)
  ((s.1 + 128) / 256, (s.2.1 + 128) / 256, (s.2.2 + 128) / 256)

/-- `cv2.GaussianBlur(background, (5, 5), 0)` (line 316). -/
def gaussianBlur5 (img : Img BGR3) : Img BGR3 := ⟨img.h, img.w, fun p => blurAt img p⟩

/-- `InvisibilityCloak.capture_background` (lines 263-321): discard
`countdown_frames` reads, read `num_frames` more, mirror and collect the
successful ones; if none succeeded return `False` leaving the state
untouched, else install the blurred mean as the new background plate and
return `True`.  Returns `(success, state, remaining camera reads)`. -/
def capture_background (st : CloakState) (cam : List (Option (Img BGR3)))
    (num_frames : Nat) : Bool × CloakState × List (Option (Img BGR3)) :=
  let captured := ((cam.drop countdown_frames).take num_frames).filterMap id
  let frames := captured.map flip1
  let rest := cam.drop (countdown_frames + num_frames)
  match frames with
  | [] => (false, st, rest)
  | f :: fs =>
    (true, { st with background := some (gaussianBlur5 (meanImg f fs)) }, rest)

/-! ## `toggle_recording` (lines 329-359) -/

/-- The operator-visible outcome of `toggle_recording`, one per `print`
branch of the method. -/
inductive RecordingReport where
  | started
  | stopped
  | noFrame
  | openFailed
deriving DecidableEq

/-- `InvisibilityCloak.toggle_recording` (lines 329-359).  When not
recording: read one frame to establish the output dimensions (a failed read
aborts with no state change), open the writer with the frame's
`(width, height)`, and set the flag only if the writer opened; when
recording: clear the flag and release the writer.  `writer_opens` is the
external `VideoWriter.isOpened()` outcome.  Returns the report, the new
state, the remaining camera reads, and the frames sent to the display and
recording sinks by this method (none: the probe frame is discarded). -/
def toggle_recording (st : CloakState) (cam : List (Option (Img BGR3)))
    (writer_opens : Bool) :
    RecordingReport × CloakState × List (Option (Img BGR3)) ×
      List (Img BGR3) × List (Img BGR3) :=
  if st.is_recording then
    (.stopped, { st with is_recording := false, video_writer := none }, cam, [], [])
  else
    let r : Option (Img BGR3) := match cam with | [] => none | o :: _ => o
    let rest := cam.tail
    match r with
    | none => (.noFrame, st, rest, [], [])
    | some frame =>
      if writer_opens then
        (.started,
         { st with is_recording := true, video_writer := some (frame.w, frame.h) },
         rest, [], [])
      else
        (.openFailed, { st with video_writer := none }, rest, [], [])

/-! ## Concrete inputs used by the witness theorems -/

/-- A constant `2 × 2` HSV frame. -/
def hsvConst : Img HSV3 := ⟨2, 2, fun _ => (0, 0, 0)⟩

/-- A constant `1 × 1` HSV frame whose pixel sits inside the `(5,5,5)..(10,10,10)` box. -/
def hsvSeven : Img HSV3 := ⟨1, 1, fun _ => (7, 7, 7)⟩

/-- A constant `2 × 2` BGR frame. -/
def frameConst : Img BGR3 := ⟨2, 2, fun _ => (3, 5, 7)⟩

/-- Another constant `2 × 2` BGR frame, used as a background plate. -/
def bgConst : Img BGR3 := ⟨2, 2, fun _ => (9, 8, 6)⟩

/-- An all-member `2 × 2` mask. -/
def maskFull : Img Nat := ⟨2, 2, fun _ => 255⟩

/-- An inactive tuner with the default trackbar values (lines 124-125). -/
def tunerOff : HSVTuner := ⟨false, false, 0, 120, 70, 10, 255, 255⟩

/-- An active, initialized tuner with the default trackbar values. -/
def tunerOn : HSVTuner := ⟨true, true, 0, 120, 70, 10, 255, 255⟩

/-- The initial session state: no plate, tuner off, preset 0, not recording. -/
def stNoPlate : CloakState := ⟨none, tunerOff, 0, false, none⟩

/-- A session state holding a background plate. -/
def stPlate : CloakState := ⟨some bgConst, tunerOff, 0, false, none⟩

/-- A `10 × 10` mask whose only member is the single pixel `(4, 4)`. -/
def single_speck : Img Nat := ⟨10, 10, fun p => if p = (4, 4) then 255 else 0⟩

/-! # Theorems -/

/-! ## Grid, neighborhood and membership facts -/

theorem mem_grid {h w : Nat} {p : Pos} : p ∈ grid h w ↔ p.1 < h ∧ p.2 < w := by
  simp [grid, Finset.mem_product]

theorem card_grid (h w : Nat) : (grid h w).card = h * w := by
  simp [grid, Finset.card_product]

theorem near_refl (p : Pos) : near p p :=
  ⟨Nat.le_succ _, Nat.le_succ _, Nat.le_succ _, Nat.le_succ _⟩

theorem near_symm {p q : Pos} (h : near p q) : near q p :=
  ⟨h.2.1, h.1, h.2.2.2, h.2.2.1⟩

theorem mem_nbhd {h w : Nat} {p q : Pos} :
    q ∈ nbhd h w p ↔ q ∈ grid h w ∧ near p q := Finset.mem_filter

theorem mem_memSet {m : Img Nat} {q : Pos} :
    q ∈ memSet m ↔ q ∈ grid m.h m.w ∧ m.px q ≠ 0 := Finset.mem_filter

/-! ## C1: compositing is the identity when no plate is set -/

/-- Claim C1: for every frame and every session state without a background
plate, `apply_invisibility_effect` returns the input frame unchanged
(lines 410-411 return before any processing). -/
theorem apply_effect_identity_without_plate :
    ∀ (st : CloakState) (frame : Img BGR3),
      st.background = none → apply_invisibility_effect st frame = some frame := by
  intro st frame h
  unfold apply_invisibility_effect
  rw [h]

/-- Claim C1 witness: the identity at a concrete state and frame. -/
theorem apply_effect_identity_without_plate_witness :
    apply_invisibility_effect stNoPlate frameConst = some frameConst :=
  apply_effect_identity_without_plate stNoPlate frameConst rfl

/-! ## C2: compositing is a per-pixel ternary select -/

/-- Claim C2: for every frame and plate and every two-valued mask, each pixel
of `composite_parts` is the plate pixel where the mask marks membership and
the frame pixel where it does not — an exact select, not a blend (the
masked-out side of `cv2.add` is zero, so the saturating add is exact). -/
theorem composite_is_select :
    ∀ (frame background : Img BGR3) (mask : Img Nat),
      (∀ p, mask.px p = 0 ∨ mask.px p = 255) →
      (∀ p, wf3 (frame.px p)) → (∀ p, wf3 (background.px p)) →
      ∀ p, (composite_parts frame background mask).px p =
        if mask.px p = 0 then frame.px p else background.px p := by
  intro frame background mask h2 hf hb p
  obtain ⟨f1, f2, f3⟩ := hf p
  obtain ⟨b1, b2, b3⟩ := hb p
  rcases h2 p with h | h
  · simp [composite_parts, h, satAdd3, satAdd, Nat.min_eq_left, f1, f2, f3]
  · simp [composite_parts, h, satAdd3, satAdd, Nat.min_eq_left, b1, b2, b3]

/-- Claim C2 witness: the select evaluated at a concrete frame, plate and
all-member mask. -/
theorem composite_is_select_witness :
    (composite_parts frameConst bgConst maskFull).px (0, 0) = bgConst.px (0, 0) := by
  have h := composite_is_select frameConst bgConst maskFull
    (fun _ => Or.inr rfl) (fun _ => show wf3 (3, 5, 7) by decide)
    (fun _ => show wf3 (9, 8, 6) by decide) (0, 0)
  simpa using h

/-! ## C4: segmentation on an empty range list raises instead of returning
an all-false mask -/

/-- Claim C4 counterexample: with an empty range list the segmentation core
(lines 234-245) evaluates `masks[0]` on an empty list and raises
`IndexError` (`none`); it returns no mask at all, in particular not an
all-false mask, refuting "returns an all-false mask and does not fail". -/
theorem combine_ranges_empty_cex :
    combine_ranges [] hsvConst = none ∧
    ∀ m : Img Nat, combine_ranges [] hsvConst ≠ some m :=
  ⟨rfl, fun _ h => Option.noConfusion h⟩

/-- Claim C4 (amended): on an empty range list segmentation fails
(raises, modeled `none`) rather than returning a mask; on every non-empty
range list it is total (always returns a mask); every preset of the program
has a non-empty range list, so the failing case is unreachable through
`create_color_mask`'s preset path. -/
theorem combine_ranges_empty_amended :
    (∀ hsv : Img HSV3, combine_ranges [] hsv = none) ∧
    (∀ (r : ColorRange) (rs : List ColorRange) (hsv : Img HSV3),
       (combine_ranges (r :: rs) hsv).isSome = true) ∧
    COLOR_PRESETS.all (fun pr => !pr.isEmpty) = true :=
  ⟨fun _ => rfl, fun _ _ _ => rfl, rfl⟩

/-! ## C3: background capture is all-or-nothing -/

/-- Claim C3: when zero frames are successfully read in the capture phase,
`capture_background` reports failure and the state — in particular any
previously held background plate — is left unchanged, while the camera
stream is still advanced past the countdown and capture reads. -/
theorem capture_background_zero_frames :
    ∀ (st : CloakState) (cam : List (Option (Img BGR3))) (n : Nat),
      ((cam.drop countdown_frames).take n).filterMap id = [] →
      capture_background st cam n = (false, st, cam.drop (countdown_frames + n)) := by
  intro st cam n h
  simp [capture_background, h]

/-- Claim C3 witness: a capture attempt over an exhausted camera leaves a
previously installed plate untouched and reports failure. -/
theorem capture_background_zero_frames_witness :
    capture_background stPlate [] 30 = (false, stPlate, []) := by
  have h := capture_background_zero_frames stPlate [] 30 rfl
  simpa using h

/-! ## C7: toggling recording on cannot fail into a partial state -/

/-- Claim C7: starting from `is_recording = false`, a failed frame read
leaves the state unchanged and reports `noFrame`; a frame read followed by
a writer that fails to open reports `openFailed`, leaves the flag false and
only clears the (already unset) writer handle. -/
theorem toggle_recording_failure_no_partial_state :
    ∀ (st : CloakState) (b : Bool) (frame : Img BGR3)
      (rest : List (Option (Img BGR3))),
      st.is_recording = false →
      toggle_recording st (none :: rest) b = (.noFrame, st, rest, [], []) ∧
      toggle_recording st [] b = (.noFrame, st, [], [], []) ∧
      (toggle_recording st (some frame :: rest) false).1 = .openFailed ∧
      (toggle_recording st (some frame :: rest) false).2.1 =
        { st with video_writer := none } ∧
      (toggle_recording st (some frame :: rest) false).2.1.is_recording = false := by
  intro st b frame rest h
  refine ⟨?_, ?_, ?_, ?_, ?_⟩ <;> simp [toggle_recording, h]

/-- Claim C7 witness: both failure modes at a concrete non-recording state. -/
theorem toggle_recording_failure_witness :
    toggle_recording stPlate [none] true = (.noFrame, stPlate, [], [], []) ∧
    (toggle_recording stPlate [some frameConst] false).2.1.is_recording = false := by
  have h := toggle_recording_failure_no_partial_state stPlate true frameConst [] rfl
  have h' := toggle_recording_failure_no_partial_state stPlate false frameConst [] rfl
  exact ⟨h.1, h'.2.2.2.2⟩

/-! ## C10: the recording-start probe frame is consumed and discarded -/

/-- Claim C10: starting a recording consumes exactly one camera read; the
method sends nothing to the display or recording sinks; and the probe frame
influences the outcome only through its dimensions (two frames of equal
shape produce identical results), so the frame itself is discarded. -/
theorem toggle_recording_probe_frame_discarded :
    ∀ (st : CloakState) (cam : List (Option (Img BGR3))) (b : Bool),
      st.is_recording = false →
      (toggle_recording st cam b).2.2.1 = cam.tail ∧
      (toggle_recording st cam b).2.2.2.1 = [] ∧
      (toggle_recording st cam b).2.2.2.2 = [] ∧
      ∀ (f f' : Img BGR3) (rest : List (Option (Img BGR3))),
        f.h = f'.h → f.w = f'.w →
        toggle_recording st (some f :: rest) b =
          toggle_recording st (some f' :: rest) b := by
  intro st cam b h
  refine ⟨?_, ?_, ?_, ?_⟩
  · cases cam with
    | nil => simp [toggle_recording, h]
    | cons o rest => cases o <;> cases b <;> simp [toggle_recording, h]
  · cases cam with
    | nil => simp [toggle_recording, h]
    | cons o rest => cases o <;> cases b <;> simp [toggle_recording, h]
  · cases cam with
    | nil => simp [toggle_recording, h]
    | cons o rest => cases o <;> cases b <;> simp [toggle_recording, h]
  · intro f f' rest h1 h2
    cases b <;> simp [toggle_recording, h, h1, h2]

/-- Claim C10 witness: consumption, empty sink traces and shape-only
dependence at a concrete state and stream. -/
theorem toggle_recording_probe_frame_witness :
    (toggle_recording stPlate [some frameConst] true).2.2.1 = [] ∧
    (toggle_recording stPlate [some frameConst] true).2.2.2.1 = [] ∧
    (toggle_recording stPlate [some frameConst] true).2.2.2.2 = [] ∧
    toggle_recording stPlate [some frameConst] true =
      toggle_recording stPlate [some bgConst] true := by
  have h := toggle_recording_probe_frame_discarded stPlate [some frameConst] true rfl
  exact ⟨h.1, h.2.1, h.2.2.1, h.2.2.2 frameConst bgConst [] rfl rfl⟩

/-! ## Segmentation lemmas (shared by C6, C8, C9) -/

theorem inRangeImg_px_ne_zero_iff {hsv : Img HSV3} {lower upper : HSV3} {p : Pos} :
    (inRangeImg hsv lower upper).px p ≠ 0 ↔ inRangeTest lower upper (hsv.px p) := by
  simp only [inRangeImg]
  split <;> simp_all

theorem inRangeImg_two_valued (hsv : Img HSV3) (lower upper : HSV3) (p : Pos) :
    (inRangeImg hsv lower upper).px p = 0 ∨ (inRangeImg hsv lower upper).px p = 255 := by
  simp only [inRangeImg]
  split <;> simp

theorem lor_two_valued {a b : Nat} (ha : a = 0 ∨ a = 255) (hb : b = 0 ∨ b = 255) :
    (a ||| b = 0 ∨ a ||| b = 255) ∧ (a ||| b ≠ 0 ↔ a ≠ 0 ∨ b ≠ 0) := by
  rcases ha with ha | ha <;> rcases hb with hb | hb <;> subst ha <;> subst hb <;>
    refine ⟨?_, ?_⟩ <;> decide

theorem foldl_lorImg_px (ms : List (Img Nat)) (m0 : Img Nat) (p : Pos)
    (h0 : m0.px p = 0 ∨ m0.px p = 255)
    (hms : ∀ x ∈ ms, x.px p = 0 ∨ x.px p = 255) :
    ((ms.foldl lorImg m0).px p = 0 ∨ (ms.foldl lorImg m0).px p = 255) ∧
    ((ms.foldl lorImg m0).px p ≠ 0 ↔ (m0.px p ≠ 0 ∨ ∃ x ∈ ms, x.px p ≠ 0)) := by
  induction ms generalizing m0 with
  | nil => exact ⟨h0, by simp⟩
  | cons a ms ih =>
    have ha := hms a (List.mem_cons_self a ms)
    have hbase : (lorImg m0 a).px p = 0 ∨ (lorImg m0 a).px p = 255 :=
      (lor_two_valued h0 ha).1
    have hiff : (lorImg m0 a).px p ≠ 0 ↔ (m0.px p ≠ 0 ∨ a.px p ≠ 0) :=
      (lor_two_valued h0 ha).2
    have hrest : ∀ x ∈ ms, x.px p = 0 ∨ x.px p = 255 :=
      fun x hx => hms x (List.mem_cons_of_mem a hx)
    obtain ⟨htv, hit⟩ := ih (lorImg m0 a) hbase hrest
    refine ⟨htv, ?_⟩
    rw [List.foldl_cons, hit, hiff]
    constructor
    · rintro ((h | h) | ⟨x, hx, hxne⟩)
      · exact Or.inl h
      · exact Or.inr ⟨a, List.mem_cons_self a ms, h⟩
      · exact Or.inr ⟨x, List.mem_cons_of_mem a hx, hxne⟩
    · rintro (h | ⟨x, hx, hxne⟩)
      · exact Or.inl (Or.inl h)
      · rcases List.mem_cons.mp hx with hxa | hxm
        · exact Or.inl (Or.inr (hxa ▸ hxne))
        · exact Or.inr ⟨x, hxm, hxne⟩

theorem combine_ranges_cons (r : ColorRange) (rs : List ColorRange) (hsv : Img HSV3) :
    combine_ranges (r :: rs) hsv =
      some ((rs.map (fun c => inRangeImg hsv c.1 c.2)).foldl lorImg
        (inRangeImg hsv r.1 r.2)) := rfl

theorem combine_ranges_member_iff {r : ColorRange} {rs : List ColorRange}
    {hsv : Img HSV3} {m : Img Nat}
    (h : combine_ranges (r :: rs) hsv = some m) (p : Pos) :
    (m.px p = 0 ∨ m.px p = 255) ∧
    (m.px p ≠ 0 ↔ ∃ c ∈ r :: rs, inRangeTest c.1 c.2 (hsv.px p)) := by
  rw [combine_ranges_cons] at h
  obtain rfl := (Option.some.injEq _ _).mp h
  obtain ⟨htv, hit⟩ := foldl_lorImg_px (rs.map (fun c => inRangeImg hsv c.1 c.2))
    (inRangeImg hsv r.1 r.2) p (inRangeImg_two_valued hsv r.1 r.2 p)
    (by
      intro x hx
      obtain ⟨c, _, rfl⟩ := List.mem_map.mp hx
      exact inRangeImg_two_valued hsv c.1 c.2 p)
  refine ⟨htv, ?_⟩
  rw [hit, inRangeImg_px_ne_zero_iff]
  constructor
  · rintro (h | ⟨x, hx, hxne⟩)
    · exact ⟨r, List.mem_cons_self r rs, h⟩
    · obtain ⟨c, hc, rfl⟩ := List.mem_map.mp hx
      exact ⟨c, List.mem_cons_of_mem r hc, inRangeImg_px_ne_zero_iff.mp hxne⟩
  · rintro ⟨c, hc, hct⟩
    rcases List.mem_cons.mp hc with hcr | hcm
    · exact Or.inl (hcr ▸ hct)
    · exact Or.inr ⟨inRangeImg hsv c.1 c.2, List.mem_map.mpr ⟨c, hcm, rfl⟩,
        inRangeImg_px_ne_zero_iff.mpr hct⟩

theorem combine_ranges_two_valued {l : List ColorRange} {hsv : Img HSV3} {m : Img Nat}
    (h : combine_ranges l hsv = some m) (p : Pos) :
    m.px p = 0 ∨ m.px p = 255 := by
  cases l with
  | nil => exact Option.noConfusion h
  | cons r rs => exact (combine_ranges_member_iff h p).1

/-! ## C6: an active tuner shadows the presets -/

/-- Claim C6: whenever the tuner yields a live override range, mask creation
is `cv2.inRange` with that single range alone, regardless of the selected
preset; when the tuner is inactive, the active preset's ranges are used. -/
theorem tuner_overrides_presets :
    ∀ (t : HSVTuner) (idx : Nat) (hsv : Img HSV3),
      (∀ lower upper, get_hsv_range t = some (lower, upper) →
         create_color_mask t idx hsv = some (inRangeImg hsv lower upper)) ∧
      (t.is_active = false →
         ∀ ranges, COLOR_PRESETS.get? idx = some ranges →
           create_color_mask t idx hsv = combine_ranges ranges hsv) := by
  intro t idx hsv
  constructor
  · intro lower upper hget
    have hact : t.is_active = true := by
      by_contra hn
      simp [get_hsv_range, hn] at hget
    simp [create_color_mask, hact, hget]
  · intro hinact ranges hranges
    rw [List.get?_eq_getElem?] at hranges
    simp [create_color_mask, hinact, preset_path, hranges]

/-- Claim C6 witness: with the tuner on, preset index 2 (green) is ignored
and the live trackbar range is used; with the tuner off, preset 0 (red) is
combined from its two ranges. -/
theorem tuner_overrides_presets_witness :
    create_color_mask tunerOn 2 hsvConst =
      some (inRangeImg hsvConst (0, 120, 70) (10, 255, 255)) ∧
    create_color_mask tunerOff 0 hsvConst =
      combine_ranges [(((0, 120, 70) : HSV3), ((10, 255, 255) : HSV3)),
        (((170, 120, 70) : HSV3), ((180, 255, 255) : HSV3))] hsvConst := by
  constructor
  · exact (tuner_overrides_presets tunerOn 2 hsvConst).1 _ _ rfl
  · exact (tuner_overrides_presets tunerOff 0 hsvConst).2 rfl _ rfl

/-! ## C8: segmentation is monotone in the range bounds -/

theorem inRangeTest_mono {lo hi lo' hi' v : HSV3}
    (hl : le3 lo' lo) (hu : le3 hi hi') (h : inRangeTest lo hi v) :
    inRangeTest lo' hi' v :=
  ⟨⟨le_trans hl.1 h.1.1, le_trans hl.2.1 h.1.2.1, le_trans hl.2.2 h.1.2.2⟩,
   ⟨le_trans h.2.1 hu.1, le_trans h.2.2.1 hu.2.1, le_trans h.2.2.2 hu.2.2⟩⟩

theorem exists_range_set_of_widen :
    ∀ (l : List ColorRange) (i : Nat) (lo hi lo' hi' : HSV3) (v : HSV3),
      l.get? i = some (lo, hi) → le3 lo' lo → le3 hi hi' →
      (∃ c ∈ l, inRangeTest c.1 c.2 v) →
      ∃ c ∈ l.set i (lo', hi'), inRangeTest c.1 c.2 v := by
  intro l
  induction l with
  | nil => intro i lo hi lo' hi' v hget; exact absurd hget (by simp)
  | cons a t ih =>
    intro i lo hi lo' hi' v hget hl hu hex
    cases i with
    | zero =>
      have ha : a = (lo, hi) := by simpa using hget
      obtain ⟨c, hc, hct⟩ := hex
      rcases List.mem_cons.mp hc with hca | hcm
      · refine ⟨(lo', hi'), List.mem_cons_self _ _, inRangeTest_mono hl hu ?_⟩
        rw [hca, ha] at hct
        exact hct
      · exact ⟨c, List.mem_cons_of_mem _ hcm, hct⟩
    | succ n =>
      obtain ⟨c, hc, hct⟩ := hex
      rcases List.mem_cons.mp hc with hca | hcm
      · refine ⟨a, List.mem_cons_self _ _, ?_⟩
        rw [hca] at hct
        exact hct
      · obtain ⟨c', hc', hct'⟩ := ih n lo hi lo' hi' v (by simpa using hget) hl hu ⟨c, hcm, hct⟩
        exact ⟨c', List.mem_cons_of_mem _ hc', hct'⟩

/-- Claim C8: widening one range of the list (decreasing its lower bound or
increasing its upper bound in any channel) never removes a pixel from the
segmentation mask: every member pixel of the original combined mask is a
member of the combined mask over the widened list. -/
theorem segmentation_monotone :
    ∀ (ranges : List ColorRange) (i : Nat) (lo hi lo' hi' : HSV3)
      (hsv : Img HSV3) (m : Img Nat) (p : Pos),
      ranges.get? i = some (lo, hi) → le3 lo' lo → le3 hi hi' →
      combine_ranges ranges hsv = some m → m.px p ≠ 0 →
      ∃ m', combine_ranges (ranges.set i (lo', hi')) hsv = some m' ∧ m'.px p ≠ 0 := by
  intro ranges i lo hi lo' hi' hsv m p hget hl hu hcomb hne
  cases ranges with
  | nil => exact Option.noConfusion hcomb
  | cons r rs =>
    have hmem := (combine_ranges_member_iff hcomb p).2.mp hne
    have hmem' := exists_range_set_of_widen (r :: rs) i lo hi lo' hi' (hsv.px p)
      hget hl hu hmem
    cases i with
    | zero =>
      refine ⟨_, combine_ranges_cons (lo', hi') rs hsv, ?_⟩
      exact (combine_ranges_member_iff (combine_ranges_cons (lo', hi') rs hsv) p).2.mpr
        (by simpa using hmem')
    | succ n =>
      refine ⟨_, combine_ranges_cons r (rs.set n (lo', hi')) hsv, ?_⟩
      exact (combine_ranges_member_iff (combine_ranges_cons r (rs.set n (lo', hi')) hsv) p).2.mpr
        (by simpa using hmem')

/-- Claim C8 witness: a pixel inside a concrete range stays a member after
the range is widened on both ends. -/
theorem segmentation_monotone_witness :
    ∃ m', combine_ranges ([(((5, 5, 5) : HSV3), ((10, 10, 10) : HSV3))].set 0
        ((0, 0, 0), (20, 20, 20))) hsvSeven = some m' ∧ m'.px (0, 0) ≠ 0 := by
  refine segmentation_monotone [(((5, 5, 5) : HSV3), ((10, 10, 10) : HSV3))] 0
    (5, 5, 5) (10, 10, 10) (0, 0, 0) (20, 20, 20) hsvSeven
    (inRangeImg hsvSeven (5, 5, 5) (10, 10, 10)) (0, 0) rfl (by decide) (by decide)
    rfl ?_
  rw [inRangeImg_px_ne_zero_iff]
  show inRangeTest (5, 5, 5) (10, 10, 10) (7, 7, 7)
  decide

/-! ## Two-valuedness lemmas for morphology (C9) -/

theorem erodeImg_two_valued (m : Img Nat) (hm : ∀ q, m.px q = 0 ∨ m.px q = 255)
    (p : Pos) : (erodeImg m).px p = 0 ∨ (erodeImg m).px p = 255 := by
  simp only [erodeImg]
  split
  · by_cases hex : ∃ x ∈ nbhd m.h m.w p, m.px x = 0
    · left
      obtain ⟨x, hx, hx0⟩ := hex
      have hle : (nbhd m.h m.w p).fold min 255 m.px ≤ 0 :=
        (Finset.fold_min_le _).mpr (Or.inr ⟨x, hx, le_of_eq hx0⟩)
      omega
    · right
      push_neg at hex
      have h1 : 255 ≤ (nbhd m.h m.w p).fold min 255 m.px := by
        refine (Finset.le_fold_min _).mpr ⟨le_refl _, fun x hx => ?_⟩
        rcases hm x with h0 | h255
        · exact absurd h0 (hex x hx)
        · omega
      have h2 : (nbhd m.h m.w p).fold min 255 m.px ≤ 255 :=
        (Finset.fold_min_le _).mpr (Or.inl (le_refl _))
      omega
  · exact Or.inl rfl

theorem dilateImg_two_valued (m : Img Nat) (hm : ∀ q, m.px q = 0 ∨ m.px q = 255)
    (p : Pos) : (dilateImg m).px p = 0 ∨ (dilateImg m).px p = 255 := by
  simp only [dilateImg]
  split
  · by_cases hex : ∃ x ∈ nbhd m.h m.w p, m.px x = 255
    · right
      obtain ⟨x, hx, hx255⟩ := hex
      have h1 : 255 ≤ (nbhd m.h m.w p).fold max 0 m.px :=
        (Finset.le_fold_max _).mpr (Or.inr ⟨x, hx, le_of_eq hx255.symm⟩)
      have h2 : (nbhd m.h m.w p).fold max 0 m.px ≤ 255 := by
        refine (Finset.fold_max_le _).mpr ⟨Nat.zero_le _, fun x hx => ?_⟩
        rcases hm x with h0 | h255 <;> omega
      omega
    · left
      push_neg at hex
      have hle : (nbhd m.h m.w p).fold max 0 m.px ≤ 0 := by
        refine (Finset.fold_max_le _).mpr ⟨le_refl _, fun x hx => ?_⟩
        rcases hm x with h0 | h255
        · omega
        · exact absurd h255 (hex x hx)
      omega
  · exact Or.inl rfl

theorem areaFilter_two_valued (m : Img Nat) (hm : ∀ q, m.px q = 0 ∨ m.px q = 255)
    (p : Pos) : (areaFilter m).px p = 0 ∨ (areaFilter m).px p = 255 := by
  simp only [areaFilter]
  split
  · exact Or.inl rfl
  · exact hm p

/-! ## C9: masks are two-valued and refinement preserves it -/

/-- Claim C9: every mask produced by `create_color_mask` is two-valued (each
cell is exactly 0 or 255), and `refine_mask` preserves two-valuedness — the
invariant the boolean-mask model and the bitwise compositing rely on. -/
theorem masks_two_valued :
    (∀ (t : HSVTuner) (idx : Nat) (hsv : Img HSV3) (m : Img Nat),
       create_color_mask t idx hsv = some m → ∀ p, m.px p = 0 ∨ m.px p = 255) ∧
    (∀ m : Img Nat, (∀ p, m.px p = 0 ∨ m.px p = 255) →
       ∀ p, (refine_mask m).px p = 0 ∨ (refine_mask m).px p = 255) := by
  constructor
  · intro t idx hsv m hm p
    have hpreset : ∀ (hpp : preset_path idx hsv = some m), m.px p = 0 ∨ m.px p = 255 := by
      intro hpp
      unfold preset_path at hpp
      cases hidx : COLOR_PRESETS.get? idx with
      | none => rw [hidx] at hpp; exact Option.noConfusion hpp
      | some ranges =>
        rw [hidx] at hpp
        exact combine_ranges_two_valued hpp p
    by_cases hact : t.is_active = true
    · cases hget : get_hsv_range t with
      | none =>
        rw [create_color_mask, if_pos hact, hget] at hm
        exact hpreset hm
      | some lu =>
        obtain ⟨lower, upper⟩ := lu
        rw [create_color_mask, if_pos hact, hget] at hm
        obtain rfl := (Option.some.injEq _ _).mp hm
        exact inRangeImg_two_valued hsv lower upper p
    · rw [create_color_mask, if_neg hact] at hm
      exact hpreset hm
  · intro m hm p
    have h1 := erodeImg_two_valued m hm
    have h2 := erodeImg_two_valued _ h1
    have h3 := dilateImg_two_valued _ h2
    have h4 := dilateImg_two_valued _ h3
    have h5 := dilateImg_two_valued _ h4
    exact areaFilter_two_valued _ h5 p

/-- Claim C9 witness: two-valuedness of a concrete segmented pixel (blue
preset through `create_color_mask`) and of a concrete refined pixel. -/
theorem masks_two_valued_witness :
    ((inRangeImg hsvConst (100, 150, 50) (130, 255, 255)).px (0, 0) = 0 ∨
     (inRangeImg hsvConst (100, 150, 50) (130, 255, 255)).px (0, 0) = 255) ∧
    ((refine_mask maskFull).px (0, 0) = 0 ∨ (refine_mask maskFull).px (0, 0) = 255) :=
  ⟨masks_two_valued.1 tunerOff 1 hsvConst _ rfl (0, 0),
   masks_two_valued.2 maskFull (fun _ => Or.inr rfl) (0, 0)⟩

/-! ## Connected-component machinery for the area filter (C5) -/

theorem subset_expand (m : Img Nat) (S : Finset Pos) : S ⊆ expand m S :=
  Finset.subset_union_left

theorem expand_mono (m : Img Nat) {S T : Finset Pos} (h : S ⊆ T) :
    expand m S ⊆ expand m T := by
  intro x hx
  rcases Finset.mem_union.mp hx with hxS | hxF
  · exact Finset.mem_union_left _ (h hxS)
  · obtain ⟨hxm, a, haS, hnear⟩ := Finset.mem_filter.mp hxF
    exact Finset.mem_union_right _ (Finset.mem_filter.mpr ⟨hxm, ⟨a, h haS, hnear⟩⟩)

theorem iterate_expand_subset_insert (m : Img Nat) (p : Pos) :
    ∀ k, (expand m)^[k] {p} ⊆ insert p (memSet m) := by
  intro k
  induction k with
  | zero => simp
  | succ k ih =>
    rw [Function.iterate_succ_apply']
    intro x hx
    rcases Finset.mem_union.mp hx with hxS | hxF
    · exact ih hxS
    · exact Finset.mem_insert_of_mem (Finset.mem_filter.mp hxF).1

theorem iterate_expand_succ_subset (m : Img Nat) (p : Pos) (k : Nat) :
    (expand m)^[k] {p} ⊆ (expand m)^[k + 1] {p} := by
  rw [Function.iterate_succ_apply']
  exact subset_expand m _

theorem iterate_expand_mono (m : Img Nat) (p : Pos) :
    ∀ {j k : Nat}, j ≤ k → (expand m)^[j] {p} ⊆ (expand m)^[k] {p} := by
  intro j k h
  induction h with
  | refl => exact subset_rfl
  | step _ ih => exact ih.trans (iterate_expand_succ_subset m p _)

theorem exists_expand_stall (m : Img Nat) (p : Pos) :
    ∃ k ≤ m.h * m.w, (expand m)^[k + 1] {p} = (expand m)^[k] {p} := by
  by_contra hc
  push_neg at hc
  have hgrow : ∀ k, k ≤ m.h * m.w + 1 → k + 1 ≤ ((expand m)^[k] {p}).card := by
    intro k
    induction k with
    | zero => intro _; simp
    | succ k ih =>
      intro hk
      have hne : (expand m)^[k] {p} ≠ (expand m)^[k + 1] {p} :=
        fun h => hc k (by omega) h.symm
      have hlt : ((expand m)^[k] {p}).card < ((expand m)^[k + 1] {p}).card :=
        Finset.card_lt_card
          (ssubset_iff_subset_ne.mpr ⟨iterate_expand_succ_subset m p k, hne⟩)
      have := ih (by omega)
      omega
  have hbound : ((expand m)^[m.h * m.w + 1] {p}).card ≤ m.h * m.w + 1 := by
    calc ((expand m)^[m.h * m.w + 1] {p}).card
        ≤ (insert p (memSet m)).card :=
          Finset.card_le_card (iterate_expand_subset_insert m p _)
      _ ≤ (memSet m).card + 1 := Finset.card_insert_le _ _
      _ ≤ (grid m.h m.w).card + 1 := by
          have hf := Finset.card_filter_le (grid m.h m.w) (fun q => m.px q ≠ 0)
          simp only [memSet]
          omega
      _ = m.h * m.w + 1 := by rw [card_grid]
  have := hgrow (m.h * m.w + 1) (le_refl _)
  omega

theorem comp_fixed (m : Img Nat) (p : Pos) : expand m (comp m p) = comp m p := by
  obtain ⟨k, hk, hfix⟩ := exists_expand_stall m p
  have hconst : ∀ j, (expand m)^[k + j] {p} = (expand m)^[k] {p} := by
    intro j
    induction j with
    | zero => rfl
    | succ j ih =>
      have heq : k + (j + 1) = (k + j) + 1 := by omega
      rw [heq, Function.iterate_succ_apply', ih]
      exact (Function.iterate_succ_apply' (expand m) k {p}).symm.trans hfix
  have hcomp : comp m p = (expand m)^[k] {p} := by
    have heq : m.h * m.w + 1 = k + (m.h * m.w + 1 - k) := by omega
    rw [comp, heq, hconst]
  rw [hcomp]
  exact (Function.iterate_succ_apply' (expand m) k {p}).symm.trans hfix

theorem comp_minimal (m : Img Nat) (p : Pos) {T : Finset Pos}
    (hp : p ∈ T) (hT : expand m T ⊆ T) : comp m p ⊆ T := by
  have haux : ∀ k, (expand m)^[k] {p} ⊆ T := by
    intro k
    induction k with
    | zero => simpa using hp
    | succ k ih =>
      rw [Function.iterate_succ_apply']
      exact (expand_mono m ih).trans hT
  exact haux _

theorem mem_comp_self (m : Img Nat) (p : Pos) : p ∈ comp m p :=
  iterate_expand_mono m p (Nat.zero_le _) (by simp)

theorem mem_comp_of_near (m : Img Nat) {p q : Pos}
    (hq : q ∈ memSet m) (hnear : near p q) : q ∈ comp m p := by
  have h1 : q ∈ (expand m)^[1] {p} := by
    rw [Function.iterate_one]
    exact Finset.mem_union_right _
      (Finset.mem_filter.mpr ⟨hq, ⟨p, Finset.mem_singleton_self p, hnear⟩⟩)
  exact iterate_expand_mono m p (by omega) h1

theorem comp_eq_of_near (m : Img Nat) {p q : Pos}
    (hp : p ∈ memSet m) (hq : q ∈ memSet m) (hnear : near p q) :
    comp m p = comp m q := by
  apply Finset.Subset.antisymm
  · refine comp_minimal m p (mem_comp_of_near m hp (near_symm hnear)) ?_
    rw [comp_fixed m q]
  · refine comp_minimal m q (mem_comp_of_near m hq hnear) ?_
    rw [comp_fixed m p]

theorem comp_isolated (m : Img Nat) {p : Pos}
    (hiso : ∀ q ∈ memSet m, near p q → q = p) : comp m p = {p} := by
  have hexp : expand m {p} = {p} := by
    apply Finset.Subset.antisymm
    · intro x hx
      rcases Finset.mem_union.mp hx with hxS | hxF
      · exact hxS
      · obtain ⟨hxm, a, ha, hnear⟩ := Finset.mem_filter.mp hxF
        have hap : a = p := Finset.mem_singleton.mp ha
        subst hap
        exact Finset.mem_singleton.mpr (hiso x hxm hnear)
    · exact subset_expand m {p}
  have haux : ∀ k, (expand m)^[k] {p} = {p} := by
    intro k
    induction k with
    | zero => rfl
    | succ k ih => rw [Function.iterate_succ_apply', ih, hexp]
  exact haux _

/-! ## C5: the refined mask has no isolated single-pixel member -/

theorem areaFilter_no_isolated (d : Img Nat) (p : Pos)
    (hp : p ∈ grid d.h d.w) (hm : (areaFilter d).px p ≠ 0) :
    ∃ q ∈ grid d.h d.w, q ≠ p ∧ near p q ∧ (areaFilter d).px q ≠ 0 := by
  obtain ⟨hp1, hp2⟩ := mem_grid.mp hp
  by_cases hd : d.px p ≠ 0
  case neg =>
    exfalso
    apply hm
    push_neg at hd
    simp [areaFilter, hd]
  case pos =>
  have hcard : 500 ≤ (comp d p).card := by
    by_contra hlt
    push_neg at hlt
    apply hm
    simp only [areaFilter]
    rw [if_pos ⟨hp1, hp2, hd, hlt⟩]
  by_contra hno
  push_neg at hno
  have hiso : ∀ q ∈ memSet d, near p q → q = p := by
    intro q hq hnear
    by_contra hne
    obtain ⟨hqg, hqd⟩ := mem_memSet.mp hq
    have hcomp : comp d q = comp d p :=
      comp_eq_of_near d hq (mem_memSet.mpr ⟨hp, hd⟩) (near_symm hnear)
    have hqa : (areaFilter d).px q ≠ 0 := by
      simp only [areaFilter]
      rw [if_neg]
      · exact hqd
      · rintro ⟨-, -, -, hlt⟩
        rw [hcomp] at hlt
        omega
    exact hqa (hno q hqg hne hnear)
  have hone : comp d p = {p} := comp_isolated d hiso
  rw [hone, Finset.card_singleton] at hcard
  omega

theorem hasIsolatedMember_areaFilter (d : Img Nat) :
    hasIsolatedMember (areaFilter d) = false := by
  rw [hasIsolatedMember, decide_eq_false_iff_not]
  rintro ⟨p, hp, hne, hiso⟩
  obtain ⟨q, hq, hqne, hqnear, hq0⟩ := areaFilter_no_isolated d p hp hne
  exact hq0 (hiso q hq hqnear hqne)

theorem erode_single_speck (p : Pos) : (erodeImg single_speck).px p = 0 := by
  simp only [erodeImg]
  split
  case isTrue hin =>
    by_cases hp4 : p = (4, 4)
    · have hr : ((3 : Nat), (4 : Nat)) ∈ nbhd single_speck.h single_speck.w p := by
        subst hp4
        rw [mem_nbhd]
        exact ⟨mem_grid.mpr (by decide), by decide⟩
      have hpx : single_speck.px (3, 4) = 0 := rfl
      have hle : (nbhd single_speck.h single_speck.w p).fold min 255 single_speck.px ≤ 0 :=
        (Finset.fold_min_le _).mpr (Or.inr ⟨(3, 4), hr, le_of_eq hpx⟩)
      omega
    · have hr : p ∈ nbhd single_speck.h single_speck.w p :=
        mem_nbhd.mpr ⟨mem_grid.mpr hin, near_refl p⟩
      have hpx : single_speck.px p = 0 := by simp [single_speck, hp4]
      have hle : (nbhd single_speck.h single_speck.w p).fold min 255 single_speck.px ≤ 0 :=
        (Finset.fold_min_le _).mpr (Or.inr ⟨p, hr, le_of_eq hpx⟩)
      omega
  case isFalse _ => rfl

theorem erode_zero_px (m : Img Nat) (hm : ∀ q, m.px q = 0) (p : Pos) :
    (erodeImg m).px p = 0 := by
  simp only [erodeImg]
  split
  case isTrue hin =>
    have hr : p ∈ nbhd m.h m.w p := mem_nbhd.mpr ⟨mem_grid.mpr hin, near_refl p⟩
    have hle : (nbhd m.h m.w p).fold min 255 m.px ≤ 0 :=
      (Finset.fold_min_le _).mpr (Or.inr ⟨p, hr, le_of_eq (hm p)⟩)
    omega
  case isFalse _ => rfl

theorem dilate_zero_px (m : Img Nat) (hm : ∀ q, m.px q = 0) (p : Pos) :
    (dilateImg m).px p = 0 := by
  simp only [dilateImg]
  split
  case isTrue _ =>
    have hle : (nbhd m.h m.w p).fold max 0 m.px ≤ 0 :=
      (Finset.fold_max_le _).mpr ⟨le_refl 0, fun x _ => le_of_eq (hm x)⟩
    omega
  case isFalse _ => rfl

theorem areaFilter_zero_px (m : Img Nat) (hm : ∀ q, m.px q = 0) (p : Pos) :
    (areaFilter m).px p = 0 := by
  simp only [areaFilter]
  split
  · rfl
  · exact hm p

/-- Claim C5: the mask output by `refine_mask` never contains an isolated
single-pixel member (every surviving region passed the 500-cell area filter,
so each member has a member neighbor); in particular, refining a mask whose
only member is one isolated pixel yields the all-false mask. -/
theorem refine_mask_no_isolated_member :
    (∀ m : Img Nat, hasIsolatedMember (refine_mask m) = false) ∧
    (∀ q : Pos, (refine_mask single_speck).px q = 0) := by
  constructor
  · intro m
    exact hasIsolatedMember_areaFilter (dilateImg (morphOpen2 m))
  · intro q
    have h1 : ∀ r, (erodeImg single_speck).px r = 0 := erode_single_speck
    have h2 : ∀ r, (erodeImg (erodeImg single_speck)).px r = 0 := erode_zero_px _ h1
    have h3 := dilate_zero_px _ h2
    have h4 := dilate_zero_px _ h3
    have h5 := dilate_zero_px _ h4
    exact areaFilter_zero_px _ h5 q

end Cloak
